import Mathlib

/-
Verification of the exact-arithmetic linear-system solver in src/project.py
(class LinearSystemSolver).  The solver is embedded shallowly: Python
Fraction values become ℚ, the mutable augmented matrix becomes an explicit
`List (List ℚ)` threaded through each loop, and the line-oriented log
becomes a list of structured entries, one constructor per log call site.
Fallible Python operations (list indexing, Fraction division by zero, a
missing constant) are modelled in the `Except String` monad.
-/

attribute [local semireducible] Rat.add Rat.mul Rat.inv Rat.sub

namespace LinearSystemSolver

/-- One line-group of the solver's log.  Each constructor corresponds to one
`self.log`/`self.print_matrix` call site of `LinearSystemSolver.solve`:
headers, the zero-pivot message, the two elementary-operation messages,
matrix snapshots (`print_matrix`, carrying its title and the matrix shown),
and the three classification outcomes (`solutionLine i v` is the line
`x<i> = <v>`). -/
inductive LogEntry where
  | initialSystem
  | snapshot (title : String) (m : List (List ℚ))
  | phase1Header
  | pivotZero (pivot_row col : Nat)
  | scaleOp (pivot_row : Nat) (pivot_val : ℚ)
  | subtractOp (r : Nat) (factor : ℚ) (pivot_row : Nat)
  | refDone
  | phase2Header
  | rrefDone
  | finalHeader
  | inconsistent
  | solutionLine (i : Nat) (val : ℚ)
  | infiniteTrivial
deriving DecidableEq

/-- Exact rational division; Python Fraction division raises
ZeroDivisionError on a zero divisor. -/
def qdiv (x y : ℚ) : Except String ℚ :=
  if y = 0 then .error "ZeroDivisionError" else .ok (x / y)

/-- Python list indexing l[i] with a nonnegative index, raising IndexError
when out of range. -/
def idx {α : Type} (l : List α) (i : Nat) : Except String α :=
  match l.get? i with
  | some a => .ok a
  | none => .error "IndexError"

/-- The double indexing matrix[r][c] used throughout solve. -/
def entry (m : List (List ℚ)) (r c : Nat) : Except String ℚ := do
  let row ← idx m r
  idx row c

/-- The continued-fraction loop of Python's Fraction.limit_denominator
(fractions.py): repeatedly take the next quotient a = n//d of the Euclid
sequence, stopping as soon as the next convergent denominator q2 would
exceed max_denominator.  The fuel argument only bounds the number of
iterations; d strictly decreases while positive, so any fuel larger than
the starting d reproduces the Python while-loop exactly. -/
def limitDenomLoop (maxDen : Int) :
    Nat → Int → Int → Int → Int → Int → Int → Int × Int × Int × Int × Int × Int
  | 0, p0, q0, p1, q1, n, d => (p0, q0, p1, q1, n, d)
  | fuel + 1, p0, q0, p1, q1, n, d =>
    let a := n.fdiv d
    let q2 := q0 + a * q1
    if maxDen < q2 then (p0, q0, p1, q1, n, d)
    else limitDenomLoop maxDen fuel p1 q1 (p0 + a * p1) q2 d (n - a * d)

/-- Python's Fraction.limit_denominator(max_denominator): the identity on
fractions whose denominator is at most max_denominator, otherwise the
closest fraction with denominator bounded by max_denominator, computed from
the last convergents of the continued-fraction expansion (solve calls this
with the default max_denominator = 1000000 on every input value). -/
def limit_denominator (maxDen : Nat) (q : ℚ) : ℚ :=
  if q.den ≤ maxDen then q
  else
    match limitDenomLoop (maxDen : Int) (q.den + 1) 0 1 1 0 q.num (q.den : Int) with
    | (p0, q0, p1, q1, _n, d) =>
      let k := ((maxDen : Int) - q0).fdiv q1
      if 2 * d * (q0 + k * q1) ≤ (q.den : Int) then
        (p1 : ℚ) / (q1 : ℚ)
      else
        ((p0 + k * p1 : Int) : ℚ) / ((q0 + k * q1 : Int) : ℚ)

/-- The matrix-construction loop of solve: row i is coefficients[i], each
value passed through Fraction(x).limit_denominator(), with the likewise
coerced constants[i] appended; running out of constants is Python's
IndexError on constants[i]. -/
def buildMatrix : List (List ℚ) → List ℚ → Except String (List (List ℚ))
  | [], _ => pure []
  | crow :: crest, constants =>
    match constants with
    | [] => .error "IndexError"
    | c :: krest => do
      let rest ← buildMatrix crest krest
      pure ((crow.map (limit_denominator 1000000) ++
             [limit_denominator 1000000 c]) :: rest)

/-- Phase-1 inner loop `for r in range(pivot_row + 1, rows)` of solve for
one column: subtract factor times the pivot row from each lower row whose
entry in the current column is nonzero, logging the operation and a
snapshot after each mutation. -/
def phase1Below (cols pivot_row col : Nat) :
    List Nat → List (List ℚ) → Except String (List (List ℚ) × List LogEntry)
  | [], matrix => pure (matrix, [])
  | r :: rs, matrix => do
    let factor ← entry matrix r col
    if factor ≠ 0 then do
      let new_row ← (List.range cols).mapM (fun c_idx => do
        let a ← entry matrix r c_idx
        let b ← entry matrix pivot_row c_idx
        pure (a - factor * b))
      let matrix1 := matrix.set r new_row
      let (matrix2, log) ← phase1Below cols pivot_row col rs matrix1
      pure (matrix2, LogEntry.subtractOp r factor pivot_row ::
                     LogEntry.snapshot "Current Matrix State" matrix1 :: log)
    else
      phase1Below cols pivot_row col rs matrix

/-- Phase-1 body of solve for one target column: if the entry at
(pivot_row, col) is exactly zero, log that and skip the column leaving
everything unchanged (no row swap exists anywhere in the code); otherwise
scale the pivot row to make the pivot 1 when needed (logging the operation
and a snapshot), eliminate below, and advance pivot_row by one. -/
def phase1Col (rows cols : Nat) (matrix : List (List ℚ)) (pivot_row col : Nat) :
    Except String (List (List ℚ) × Nat × List LogEntry) := do
  let pivot_val ← entry matrix pivot_row col
  if pivot_val = 0 then
    pure (matrix, pivot_row, [LogEntry.pivotZero pivot_row col])
  else do
    let (matrix1, log1) ←
      if pivot_val ≠ 1 then do
        let prow ← idx matrix pivot_row
        let scaled ← prow.mapM (fun x => qdiv x pivot_val)
        let m1 := matrix.set pivot_row scaled
        pure (m1, [LogEntry.scaleOp pivot_row pivot_val,
                   LogEntry.snapshot "Current Matrix State" m1])
      else pure (matrix, ([] : List LogEntry))
    let (matrix2, log2) ← phase1Below cols pivot_row col
      (List.range' (pivot_row + 1) (rows - (pivot_row + 1))) matrix1
    pure (matrix2, pivot_row + 1, log1 ++ log2)

/-- Phase 1 of solve: `for col in range(n_vars)` with the early
`if pivot_row >= rows: break`. -/
def phase1 (rows cols : Nat) :
    List Nat → List (List ℚ) → Nat → Except String (List (List ℚ) × Nat × List LogEntry)
  | [], matrix, pivot_row => pure (matrix, pivot_row, [])
  | col :: cs, matrix, pivot_row =>
    if rows ≤ pivot_row then pure (matrix, pivot_row, [])
    else do
      let (m1, pr1, log1) ← phase1Col rows cols matrix pivot_row col
      let (m2, pr2, log2) ← phase1 rows cols cs m1 pr1
      pure (m2, pr2, log1 ++ log2)

/-- Phase-2 pivot detection of solve: scan the given column indices (the
coefficient columns, left to right) for the first row entry that is exactly
1. -/
def findPivotCol (row : List ℚ) : List Nat → Except String (Option Nat)
  | [] => pure none
  | c :: cs => do
    let v ← idx row c
    if v = 1 then pure (some c) else findPivotCol row cs

/-- Phase-2 inner loop `for r in range(i - 1, -1, -1)` of solve: clear the
detected pivot column in every row above row i, logging each operation and
a snapshot after each mutation. -/
def phase2Above (cols i pivot_col : Nat) :
    List Nat → List (List ℚ) → Except String (List (List ℚ) × List LogEntry)
  | [], matrix => pure (matrix, [])
  | r :: rs, matrix => do
    let factor ← entry matrix r pivot_col
    if factor ≠ 0 then do
      let new_row ← (List.range cols).mapM (fun c_idx => do
        let a ← entry matrix r c_idx
        let b ← entry matrix i c_idx
        pure (a - factor * b))
      let matrix1 := matrix.set r new_row
      let (matrix2, log) ← phase2Above cols i pivot_col rs matrix1
      pure (matrix2, LogEntry.subtractOp r factor i ::
                     LogEntry.snapshot "Current Matrix State" matrix1 :: log)
    else
      phase2Above cols i pivot_col rs matrix

/-- Phase-2 body of solve for one row: find the leftmost coefficient entry
that is exactly 1; if none exists the row is skipped entirely, otherwise
eliminate that column from every row above. -/
def phase2Row (n_vars cols i : Nat) (matrix : List (List ℚ)) :
    Except String (List (List ℚ) × List LogEntry) := do
  let row ← idx matrix i
  let pivot_col ← findPivotCol row (List.range n_vars)
  match pivot_col with
  | none => pure (matrix, [])
  | some pc => phase2Above cols i pc (List.range i).reverse matrix

/-- Phase 2 of solve: `for i in range(rows - 1, -1, -1)`. -/
def phase2 (n_vars cols : Nat) :
    List Nat → List (List ℚ) → Except String (List (List ℚ) × List LogEntry)
  | [], matrix => pure (matrix, [])
  | i :: is, matrix => do
    let (m1, log1) ← phase2Row n_vars cols i matrix
    let (m2, log2) ← phase2 n_vars cols is m1
    pure (m2, log1 ++ log2)

/-- The solution-classification loop of solve over the final matrix rows,
carrying the accumulated solutions list: a row with all-zero coefficients
and a nonzero constant returns INCONSISTENT at once (discarding the
accumulator); an all-zero row is skipped; any other row contributes its
constant.  At the end either the accepted solutions are printed as
x1, x2, ... or, if none were accepted, the trivial/infinite notice. -/
def classify : List (List ℚ) → List ℚ → Except String (List LogEntry)
  | [], solutions =>
    if solutions.isEmpty then pure [LogEntry.infiniteTrivial]
    else pure (solutions.enum.map (fun p => LogEntry.solutionLine (p.1 + 1) p.2))
  | row :: rest, solutions =>
    match row.getLast? with
    | none => .error "IndexError"
    | some constant =>
      let is_all_zeros := row.dropLast.all (fun x => decide (x = 0))
      if is_all_zeros && decide (constant ≠ 0) then pure [LogEntry.inconsistent]
      else if is_all_zeros then classify rest solutions
      else classify rest (solutions ++ [constant])

/-- LinearSystemSolver.solve from src/project.py: an empty coefficient list
returns at once with nothing logged; otherwise build the augmented matrix,
run forward elimination (Phase 1) and back substitution (Phase 2), then
classify, emitting the headers and log entries in the order of the Python
code. -/
def solve (coefficients : List (List ℚ)) (constants : List ℚ) :
    Except String (List LogEntry) := do
  let rows := coefficients.length
  if rows = 0 then pure []
  else do
    let matrix ← buildMatrix coefficients constants
    let row0 ← idx matrix 0
    let cols := row0.length
    let n_vars := cols - 1
    let (m1, _pr, log1) ← phase1 rows cols (List.range n_vars) matrix 0
    let (m2, log2) ← phase2 n_vars cols (List.range rows).reverse m1
    let log3 ← classify m2 []
    pure ([LogEntry.initialSystem, LogEntry.snapshot "Augmented Matrix" matrix,
           LogEntry.phase1Header]
      ++ log1 ++ [LogEntry.refDone, LogEntry.phase2Header] ++ log2
      ++ [LogEntry.rrefDone, LogEntry.finalHeader] ++ log3)

/-- format_value from src/project.py: the integer literal string when the
denominator is 1, otherwise "numerator/denominator". -/
def format_value (x : ℚ) : String :=
  if x.den = 1 then toString x.num
  else toString x.num ++ "/" ++ toString x.den

/-- Whether a log entry is a solution-value line x i = val. -/
def isSolutionLine : LogEntry → Bool
  | .solutionLine _ _ => true
  | _ => false

/-- Whether a log entry is a Phase-1 row-scale operation. -/
def isScaleOp : LogEntry → Bool
  | .scaleOp _ _ => true
  | _ => false

/-- Whether a log entry is a row-subtract operation (Phase 1 or Phase 2). -/
def isSubtractOp : LogEntry → Bool
  | .subtractOp _ _ _ => true
  | _ => false

/-- A Boolean property of the log of a successful solve; a solve that
raised satisfies nothing. -/
def logSat (r : Except String (List LogEntry)) (p : List LogEntry → Bool) : Bool :=
  match r with
  | .ok log => p log
  | .error _ => false

/-- A matrix has R rows, each of length C. -/
abbrev Shape (m : List (List ℚ)) (R C : Nat) : Prop :=
  m.length = R ∧ ∀ row ∈ m, row.length = C

theorem exceptBind_ok {α β : Type} (x : Except String α) (f : α → Except String β)
    (y : β) : x >>= f = .ok y ↔ ∃ a, x = .ok a ∧ f a = .ok y := by
  cases x <;> simp [Bind.bind, Except.bind]

theorem exceptPure_eq_ok {α : Type} (a : α) :
    (pure a : Except String α) = .ok a := rfl

theorem idx_ok_iff {α : Type} (l : List α) (i : Nat) (a : α) :
    idx l i = .ok a ↔ l.get? i = some a := by
  unfold idx
  cases h : l.get? i <;> simp

theorem idx_ok_of_lt {α : Type} (l : List α) (i : Nat) (h : i < l.length) :
    idx l i = .ok (l.get ⟨i, h⟩) := by
  rw [idx_ok_iff]
  exact List.get?_eq_get h

theorem idx_ok_exists {α : Type} (l : List α) (i : Nat) (h : i < l.length) :
    ∃ a, idx l i = .ok a ∧ a ∈ l :=
  ⟨l.get ⟨i, h⟩, idx_ok_of_lt l i h, l.get_mem _ _⟩

theorem entry_ok_exists (m : List (List ℚ)) (R C r c : Nat) (hm : Shape m R C)
    (hr : r < R) (hc : c < C) : ∃ v, entry m r c = .ok v := by
  obtain ⟨hlen, hrow⟩ := hm
  obtain ⟨row, hrowok, hrowmem⟩ := idx_ok_exists m r (hlen ▸ hr)
  have hrlen : row.length = C := hrow row hrowmem
  obtain ⟨v, hv, _⟩ := idx_ok_exists row c (hrlen ▸ hc)
  exact ⟨v, by unfold entry; rw [hrowok]; simpa [Bind.bind, Except.bind] using hv⟩

theorem mapM_ok_length {α β : Type} (f : α → Except String β) :
    ∀ (xs : List α) (l : List β), xs.mapM f = .ok l → l.length = xs.length := by
  intro xs
  induction xs with
  | nil =>
    intro l h
    simp [List.mapM_nil, List.mapM.loop, exceptPure_eq_ok] at h
    simp [← h]
  | cons x xs ih =>
    intro l h
    rw [List.mapM_cons] at h
    rw [exceptBind_ok] at h
    obtain ⟨b, _, h⟩ := h
    rw [exceptBind_ok] at h
    obtain ⟨bs, hbs, h⟩ := h
    simp [exceptPure_eq_ok] at h
    simp [← h, ih bs hbs]

theorem mapM_ok_exists {α β : Type} (f : α → Except String β) :
    ∀ xs : List α, (∀ x ∈ xs, ∃ v, f x = .ok v) →
      ∃ l, xs.mapM f = .ok l ∧ l.length = xs.length := by
  intro xs
  induction xs with
  | nil =>
    intro _
    exact ⟨[], by simp [List.mapM_nil, List.mapM.loop, exceptPure_eq_ok], rfl⟩
  | cons x xs ih =>
    intro h
    obtain ⟨v, hv⟩ := h x (List.mem_cons_self x xs)
    obtain ⟨l, hl, hlen⟩ := ih (fun y hy => h y (List.mem_cons_of_mem x hy))
    refine ⟨v :: l, ?_, by simp [hlen]⟩
    rw [List.mapM_cons, exceptBind_ok]
    exact ⟨v, hv, by rw [exceptBind_ok]; exact ⟨l, hl, rfl⟩⟩

theorem mapM_qdiv_eq (v : ℚ) (hv : v ≠ 0) :
    ∀ row : List ℚ, row.mapM (fun x => qdiv x v) = .ok (row.map (fun x => x / v)) := by
  intro row
  induction row with
  | nil => simp [List.mapM_nil, List.mapM.loop, exceptPure_eq_ok]
  | cons x xs ih =>
    rw [List.mapM_cons, ih]
    simp [qdiv, hv, Bind.bind, Except.bind, exceptPure_eq_ok]

theorem shape_set (m : List (List ℚ)) (R C r : Nat) (new : List ℚ)
    (hm : Shape m R C) (hnew : new.length = C) : Shape (m.set r new) R C := by
  obtain ⟨hlen, hrow⟩ := hm
  refine ⟨by simp [hlen], fun row hmem => ?_⟩
  rcases List.mem_or_eq_of_mem_set hmem with h | h
  · exact hrow row h
  · simp [h, hnew]

theorem phase1Below_shape (R C pr col : Nat) :
    ∀ (rs : List Nat) (m m' : List (List ℚ)) (log : List LogEntry),
      phase1Below C pr col rs m = .ok (m', log) → Shape m R C → Shape m' R C := by
  intro rs
  induction rs with
  | nil =>
    intro m m' log h hm
    simp [phase1Below, exceptPure_eq_ok] at h
    rw [← h.1]
    exact hm
  | cons r rs ih =>
    intro m m' log h hm
    rw [phase1Below, exceptBind_ok] at h
    obtain ⟨factor, hfac, h⟩ := h
    by_cases hf : factor = 0
    · simp [hf] at h
      exact ih m m' _ h hm
    · simp only [hf, ne_eq, not_false_eq_true, if_true] at h
      rw [exceptBind_ok] at h
      obtain ⟨new_row, hnr, h⟩ := h
      rw [exceptBind_ok] at h
      obtain ⟨⟨m2, lg⟩, hrec, hpure⟩ := h
      simp [exceptPure_eq_ok] at hpure
      have hlen : new_row.length = C := by
        have := mapM_ok_length _ _ _ hnr
        simpa using this
      have hm1 : Shape (m.set r new_row) R C := shape_set m R C r new_row hm hlen
      rw [← hpure.1]
      exact ih _ m2 lg hrec hm1

theorem phase1Col_shape (R C : Nat) (m : List (List ℚ)) (pr col : Nat)
    (m' : List (List ℚ)) (pr' : Nat) (log : List LogEntry)
    (h : phase1Col R C m pr col = .ok (m', pr', log)) (hm : Shape m R C) :
    Shape m' R C := by
  rw [phase1Col, exceptBind_ok] at h
  obtain ⟨pivot_val, hpv, h⟩ := h
  by_cases hz : pivot_val = 0
  · simp [hz, exceptPure_eq_ok] at h
    rw [← h.1]
    exact hm
  · simp only [hz, if_false] at h
    by_cases h1 : pivot_val = 1
    · simp only [h1, ne_eq, not_true_eq_false, if_false] at h
      rw [exceptBind_ok] at h
      obtain ⟨y, hy, h⟩ := h
      simp [exceptPure_eq_ok] at hy
      rw [exceptBind_ok] at h
      obtain ⟨⟨m2, lg2⟩, hrec, hpure⟩ := h
      simp [exceptPure_eq_ok] at hpure
      rw [← hy] at hrec
      rw [← hpure.1]
      exact phase1Below_shape R C pr col _ m m2 lg2 hrec hm
    · simp only [h1, ne_eq, not_false_eq_true, if_true] at h
      rw [exceptBind_ok] at h
      obtain ⟨prow, hprow, h⟩ := h
      rw [exceptBind_ok] at h
      obtain ⟨scaled, hscaled, h⟩ := h
      rw [exceptBind_ok] at h
      obtain ⟨y, hy, h⟩ := h
      simp [exceptPure_eq_ok] at hy
      rw [exceptBind_ok] at h
      obtain ⟨⟨m2, lg2⟩, hrec, hpure⟩ := h
      simp [exceptPure_eq_ok] at hpure
      have hprowmem : prow ∈ m := by
        rw [idx_ok_iff] at hprow
        exact List.get?_mem hprow
      have hslen : scaled.length = C := by
        rw [mapM_ok_length _ _ _ hscaled]
        exact hm.2 prow hprowmem
      have hm1 : Shape (m.set pr scaled) R C := shape_set m R C pr scaled hm hslen
      rw [← hy] at hrec
      rw [← hpure.1]
      exact phase1Below_shape R C pr col _ _ m2 lg2 hrec hm1

theorem phase1_shape (R C : Nat) :
    ∀ (cs : List Nat) (m m' : List (List ℚ)) (pr pr' : Nat) (log : List LogEntry),
      phase1 R C cs m pr = .ok (m', pr', log) → Shape m R C → Shape m' R C := by
  intro cs
  induction cs with
  | nil =>
    intro m m' pr pr' log h hm
    simp [phase1, exceptPure_eq_ok] at h
    rw [← h.1]
    exact hm
  | cons col cs ih =>
    intro m m' pr pr' log h hm
    rw [phase1] at h
    by_cases hstop : R ≤ pr
    · simp [hstop, exceptPure_eq_ok] at h
      rw [← h.1]
      exact hm
    · simp only [hstop, if_false] at h
      rw [exceptBind_ok] at h
      obtain ⟨⟨m1, pr1, lg1⟩, hcol, h⟩ := h
      rw [exceptBind_ok] at h
      obtain ⟨⟨m2, pr2, lg2⟩, hrec, hpure⟩ := h
      simp [exceptPure_eq_ok] at hpure
      have hm1 : Shape m1 R C := phase1Col_shape R C m pr col m1 pr1 lg1 hcol hm
      rw [← hpure.1]
      exact ih m1 m2 pr1 pr2 lg2 hrec hm1

theorem phase2Above_shape (R C i pc : Nat) :
    ∀ (rs : List Nat) (m m' : List (List ℚ)) (log : List LogEntry),
      phase2Above C i pc rs m = .ok (m', log) → Shape m R C → Shape m' R C := by
  intro rs
  induction rs with
  | nil =>
    intro m m' log h hm
    simp [phase2Above, exceptPure_eq_ok] at h
    rw [← h.1]
    exact hm
  | cons r rs ih =>
    intro m m' log h hm
    rw [phase2Above, exceptBind_ok] at h
    obtain ⟨factor, hfac, h⟩ := h
    by_cases hf : factor = 0
    · simp [hf] at h
      exact ih m m' _ h hm
    · simp only [hf, ne_eq, not_false_eq_true, if_true] at h
      rw [exceptBind_ok] at h
      obtain ⟨new_row, hnr, h⟩ := h
      rw [exceptBind_ok] at h
      obtain ⟨⟨m2, lg⟩, hrec, hpure⟩ := h
      simp [exceptPure_eq_ok] at hpure
      have hlen : new_row.length = C := by
        have := mapM_ok_length _ _ _ hnr
        simpa using this
      rw [← hpure.1]
      exact ih _ m2 lg hrec (shape_set m R C r new_row hm hlen)

theorem phase2Row_shape (R C n_vars i : Nat) (m m' : List (List ℚ))
    (log : List LogEntry) (h : phase2Row n_vars C i m = .ok (m', log))
    (hm : Shape m R C) : Shape m' R C := by
  rw [phase2Row, exceptBind_ok] at h
  obtain ⟨row, hrow, h⟩ := h
  rw [exceptBind_ok] at h
  obtain ⟨pc, hpc, h⟩ := h
  cases pc with
  | none =>
    simp [exceptPure_eq_ok] at h
    rw [← h.1]
    exact hm
  | some c =>
    exact phase2Above_shape R C i c _ m m' log h hm

theorem phase2_shape (R C n_vars : Nat) :
    ∀ (is : List Nat) (m m' : List (List ℚ)) (log : List LogEntry),
      phase2 n_vars C is m = .ok (m', log) → Shape m R C → Shape m' R C := by
  intro is
  induction is with
  | nil =>
    intro m m' log h hm
    simp [phase2, exceptPure_eq_ok] at h
    rw [← h.1]
    exact hm
  | cons i is ih =>
    intro m m' log h hm
    rw [phase2, exceptBind_ok] at h
    obtain ⟨⟨m1, lg1⟩, hrowstep, h⟩ := h
    rw [exceptBind_ok] at h
    obtain ⟨⟨m2, lg2⟩, hrec, hpure⟩ := h
    simp [exceptPure_eq_ok] at hpure
    rw [← hpure.1]
    exact ih m1 m2 lg2 hrec (phase2Row_shape R C n_vars i m m1 lg1 hrowstep hm)

theorem phase1Below_ok (R C pr col : Nat) (hpr : pr < R) (hcol : col < C) :
    ∀ (rs : List Nat) (m : List (List ℚ)), Shape m R C → (∀ r ∈ rs, r < R) →
      ∃ m' log, phase1Below C pr col rs m = .ok (m', log) := by
  intro rs
  induction rs with
  | nil =>
    intro m _ _
    exact ⟨m, [], by simp [phase1Below, exceptPure_eq_ok]⟩
  | cons r rs ih =>
    intro m hm hrs
    have hr : r < R := hrs r (List.mem_cons_self r rs)
    obtain ⟨factor, hfac⟩ := entry_ok_exists m R C r col hm hr hcol
    by_cases hf : factor = 0
    · obtain ⟨m', lg, hrec⟩ := ih m hm (fun x hx => hrs x (List.mem_cons_of_mem r hx))
      refine ⟨m', lg, ?_⟩
      rw [phase1Below, exceptBind_ok]
      refine ⟨factor, hfac, ?_⟩
      simp only [hf, ne_eq, not_true_eq_false, if_false]
      exact hrec
    · have hterm : ∀ c ∈ List.range C, ∃ v,
          (do
            let a ← entry m r c
            let b ← entry m pr c
            pure (a - factor * b) : Except String ℚ) = .ok v := by
        intro c hc
        have hcC : c < C := List.mem_range.mp hc
        obtain ⟨a, ha⟩ := entry_ok_exists m R C r c hm hr hcC
        obtain ⟨b, hb⟩ := entry_ok_exists m R C pr c hm hpr hcC
        refine ⟨a - factor * b, ?_⟩
        rw [exceptBind_ok]
        exact ⟨a, ha, by rw [exceptBind_ok]; exact ⟨b, hb, rfl⟩⟩
      obtain ⟨new_row, hnr, hnrlen⟩ := mapM_ok_exists _ (List.range C) hterm
      have hlen : new_row.length = C := by simpa using hnrlen
      have hm1 : Shape (m.set r new_row) R C := shape_set m R C r new_row hm hlen
      obtain ⟨m', lg, hrec⟩ :=
        ih (m.set r new_row) hm1 (fun x hx => hrs x (List.mem_cons_of_mem r hx))
      refine ⟨m', LogEntry.subtractOp r factor pr ::
        LogEntry.snapshot "Current Matrix State" (m.set r new_row) :: lg, ?_⟩
      rw [phase1Below, exceptBind_ok]
      refine ⟨factor, hfac, ?_⟩
      simp only [hf, ne_eq, not_false_eq_true, if_true]
      rw [exceptBind_ok]
      refine ⟨new_row, hnr, ?_⟩
      rw [exceptBind_ok]
      exact ⟨(m', lg), hrec, rfl⟩

theorem phase1Col_ok (R C : Nat) (m : List (List ℚ)) (pr col : Nat)
    (hm : Shape m R C) (hpr : pr < R) (hcol : col < C) :
    ∃ m' pr' log, phase1Col R C m pr col = .ok (m', pr', log) := by
  obtain ⟨pivot_val, hpv⟩ := entry_ok_exists m R C pr col hm hpr hcol
  have hbelow_range : ∀ r ∈ List.range' (pr + 1) (R - (pr + 1)), r < R := by
    intro r hr
    have := List.mem_range'_1.mp hr
    omega
  by_cases hz : pivot_val = 0
  · refine ⟨m, pr, [LogEntry.pivotZero pr col], ?_⟩
    rw [phase1Col, exceptBind_ok]
    exact ⟨pivot_val, hpv, by simp [hz, exceptPure_eq_ok]⟩
  · by_cases h1 : pivot_val = 1
    · obtain ⟨m2, lg, hrec⟩ :=
        phase1Below_ok R C pr col hpr hcol (List.range' (pr + 1) (R - (pr + 1))) m hm
          hbelow_range
      refine ⟨m2, pr + 1, lg, ?_⟩
      rw [phase1Col, exceptBind_ok]
      refine ⟨pivot_val, hpv, ?_⟩
      simp only [hz, if_false]
      simp only [h1, ne_eq, not_true_eq_false, if_false]
      rw [exceptBind_ok]
      refine ⟨(m, []), rfl, ?_⟩
      rw [exceptBind_ok]
      exact ⟨(m2, lg), hrec, rfl⟩
    · obtain ⟨prow, hprow, hprowmem⟩ := idx_ok_exists m pr (hm.1 ▸ hpr)
      have hscaled := mapM_qdiv_eq pivot_val hz prow
      have hslen : (prow.map (fun x => x / pivot_val)).length = C := by
        simp [hm.2 prow hprowmem]
      have hm1 : Shape (m.set pr (prow.map (fun x => x / pivot_val))) R C :=
        shape_set m R C pr _ hm hslen
      obtain ⟨m2, lg, hrec⟩ :=
        phase1Below_ok R C pr col hpr hcol (List.range' (pr + 1) (R - (pr + 1))) _ hm1
          hbelow_range
      refine ⟨m2, pr + 1, [LogEntry.scaleOp pr pivot_val,
        LogEntry.snapshot "Current Matrix State"
          (m.set pr (prow.map (fun x => x / pivot_val)))] ++ lg, ?_⟩
      rw [phase1Col, exceptBind_ok]
      refine ⟨pivot_val, hpv, ?_⟩
      simp only [hz, if_false, h1, ne_eq, not_false_eq_true, if_true]
      rw [exceptBind_ok]
      refine ⟨prow, hprow, ?_⟩
      rw [exceptBind_ok]
      refine ⟨prow.map (fun x => x / pivot_val), hscaled, ?_⟩
      rw [exceptBind_ok]
      refine ⟨_, rfl, ?_⟩
      rw [exceptBind_ok]
      exact ⟨(m2, lg), hrec, rfl⟩

theorem phase1_ok (R C : Nat) :
    ∀ (cs : List Nat) (m : List (List ℚ)) (pr : Nat), Shape m R C →
      (∀ c ∈ cs, c < C) →
      ∃ m' pr' log, phase1 R C cs m pr = .ok (m', pr', log) := by
  intro cs
  induction cs with
  | nil =>
    intro m pr _ _
    exact ⟨m, pr, [], by simp [phase1, exceptPure_eq_ok]⟩
  | cons col cs ih =>
    intro m pr hm hcs
    by_cases hstop : R ≤ pr
    · exact ⟨m, pr, [], by simp [phase1, hstop, exceptPure_eq_ok]⟩
    · have hcol : col < C := hcs col (List.mem_cons_self col cs)
      obtain ⟨m1, pr1, lg1, hcolok⟩ :=
        phase1Col_ok R C m pr col hm (by omega) hcol
      have hm1 : Shape m1 R C := phase1Col_shape R C m pr col m1 pr1 lg1 hcolok hm
      obtain ⟨m2, pr2, lg2, hrec⟩ :=
        ih m1 pr1 hm1 (fun x hx => hcs x (List.mem_cons_of_mem col hx))
      refine ⟨m2, pr2, lg1 ++ lg2, ?_⟩
      rw [phase1]
      simp only [hstop, if_false]
      rw [exceptBind_ok]
      refine ⟨(m1, pr1, lg1), hcolok, ?_⟩
      rw [exceptBind_ok]
      exact ⟨(m2, pr2, lg2), hrec, rfl⟩

theorem findPivotCol_ok (row : List ℚ) (C : Nat) (hrow : row.length = C) :
    ∀ cs : List Nat, (∀ c ∈ cs, c < C) →
      ∃ o, findPivotCol row cs = .ok o := by
  intro cs
  induction cs with
  | nil => intro _; exact ⟨none, rfl⟩
  | cons c cs ih =>
    intro hcs
    have hc : c < row.length := by
      rw [hrow]; exact hcs c (List.mem_cons_self c cs)
    obtain ⟨v, hv, _⟩ := idx_ok_exists row c hc
    by_cases h1 : v = 1
    · refine ⟨some c, ?_⟩
      rw [findPivotCol, exceptBind_ok]
      exact ⟨v, hv, by simp [h1, exceptPure_eq_ok]⟩
    · obtain ⟨o, ho⟩ := ih (fun x hx => hcs x (List.mem_cons_of_mem c hx))
      refine ⟨o, ?_⟩
      rw [findPivotCol, exceptBind_ok]
      refine ⟨v, hv, ?_⟩
      simp only [h1, if_false]
      exact ho

theorem findPivotCol_some_mem (row : List ℚ) :
    ∀ (cs : List Nat) (c : Nat), findPivotCol row cs = .ok (some c) → c ∈ cs := by
  intro cs
  induction cs with
  | nil =>
    intro c h
    simp [findPivotCol, exceptPure_eq_ok] at h
  | cons c0 cs ih =>
    intro c h
    rw [findPivotCol, exceptBind_ok] at h
    obtain ⟨v, _, h⟩ := h
    by_cases h1 : v = 1
    · simp [h1, exceptPure_eq_ok] at h
      simp [h]
    · simp only [h1, if_false] at h
      exact List.mem_cons_of_mem c0 (ih c h)

theorem phase2Above_ok (R C i pc : Nat) (hi : i < R) (hpc : pc < C) :
    ∀ (rs : List Nat) (m : List (List ℚ)), Shape m R C → (∀ r ∈ rs, r < R) →
      ∃ m' log, phase2Above C i pc rs m = .ok (m', log) := by
  intro rs
  induction rs with
  | nil =>
    intro m _ _
    exact ⟨m, [], by simp [phase2Above, exceptPure_eq_ok]⟩
  | cons r rs ih =>
    intro m hm hrs
    have hr : r < R := hrs r (List.mem_cons_self r rs)
    obtain ⟨factor, hfac⟩ := entry_ok_exists m R C r pc hm hr hpc
    by_cases hf : factor = 0
    · obtain ⟨m', lg, hrec⟩ := ih m hm (fun x hx => hrs x (List.mem_cons_of_mem r hx))
      refine ⟨m', lg, ?_⟩
      rw [phase2Above, exceptBind_ok]
      refine ⟨factor, hfac, ?_⟩
      simp only [hf, ne_eq, not_true_eq_false, if_false]
      exact hrec
    · have hterm : ∀ c ∈ List.range C, ∃ v,
          (do
            let a ← entry m r c
            let b ← entry m i c
            pure (a - factor * b) : Except String ℚ) = .ok v := by
        intro c hc
        have hcC : c < C := List.mem_range.mp hc
        obtain ⟨a, ha⟩ := entry_ok_exists m R C r c hm hr hcC
        obtain ⟨b, hb⟩ := entry_ok_exists m R C i c hm hi hcC
        refine ⟨a - factor * b, ?_⟩
        rw [exceptBind_ok]
        exact ⟨a, ha, by rw [exceptBind_ok]; exact ⟨b, hb, rfl⟩⟩
      obtain ⟨new_row, hnr, hnrlen⟩ := mapM_ok_exists _ (List.range C) hterm
      have hlen : new_row.length = C := by simpa using hnrlen
      have hm1 : Shape (m.set r new_row) R C := shape_set m R C r new_row hm hlen
      obtain ⟨m', lg, hrec⟩ :=
        ih (m.set r new_row) hm1 (fun x hx => hrs x (List.mem_cons_of_mem r hx))
      refine ⟨m', LogEntry.subtractOp r factor i ::
        LogEntry.snapshot "Current Matrix State" (m.set r new_row) :: lg, ?_⟩
      rw [phase2Above, exceptBind_ok]
      refine ⟨factor, hfac, ?_⟩
      simp only [hf, ne_eq, not_false_eq_true, if_true]
      rw [exceptBind_ok]
      refine ⟨new_row, hnr, ?_⟩
      rw [exceptBind_ok]
      exact ⟨(m', lg), hrec, rfl⟩

theorem phase2Row_ok (R C n_vars i : Nat) (m : List (List ℚ)) (hm : Shape m R C)
    (hi : i < R) (hnv : n_vars ≤ C) :
    ∃ m' log, phase2Row n_vars C i m = .ok (m', log) := by
  obtain ⟨row, hrow, hrowmem⟩ := idx_ok_exists m i (hm.1 ▸ hi)
  have hrlen : row.length = C := hm.2 row hrowmem
  obtain ⟨o, ho⟩ := findPivotCol_ok row C hrlen (List.range n_vars)
    (fun c hc => lt_of_lt_of_le (List.mem_range.mp hc) hnv)
  cases o with
  | none =>
    refine ⟨m, [], ?_⟩
    rw [phase2Row, exceptBind_ok]
    refine ⟨row, hrow, ?_⟩
    rw [exceptBind_ok]
    exact ⟨none, ho, rfl⟩
  | some pc =>
    have hpc : pc < C :=
      lt_of_lt_of_le (List.mem_range.mp (findPivotCol_some_mem row _ pc ho)) hnv
    obtain ⟨m', lg, habove⟩ := phase2Above_ok R C i pc hi hpc
      (List.range i).reverse m hm (fun r hr => by
        have := List.mem_range.mp (List.mem_reverse.mp hr)
        omega)
    refine ⟨m', lg, ?_⟩
    rw [phase2Row, exceptBind_ok]
    refine ⟨row, hrow, ?_⟩
    rw [exceptBind_ok]
    exact ⟨some pc, ho, habove⟩

theorem phase2_ok (R C n_vars : Nat) (hnv : n_vars ≤ C) :
    ∀ (is : List Nat) (m : List (List ℚ)), Shape m R C → (∀ i ∈ is, i < R) →
      ∃ m' log, phase2 n_vars C is m = .ok (m', log) := by
  intro is
  induction is with
  | nil =>
    intro m _ _
    exact ⟨m, [], by simp [phase2, exceptPure_eq_ok]⟩
  | cons i is ih =>
    intro m hm his
    obtain ⟨m1, lg1, hrowok⟩ :=
      phase2Row_ok R C n_vars i m hm (his i (List.mem_cons_self i is)) hnv
    have hm1 : Shape m1 R C := phase2Row_shape R C n_vars i m m1 lg1 hrowok hm
    obtain ⟨m2, lg2, hrec⟩ := ih m1 hm1 (fun x hx => his x (List.mem_cons_of_mem i hx))
    refine ⟨m2, lg1 ++ lg2, ?_⟩
    rw [phase2, exceptBind_ok]
    refine ⟨(m1, lg1), hrowok, ?_⟩
    rw [exceptBind_ok]
    exact ⟨(m2, lg2), hrec, rfl⟩

theorem classify_ok :
    ∀ (m : List (List ℚ)) (sols : List ℚ), (∀ row ∈ m, row ≠ []) →
      ∃ log, classify m sols = .ok log := by
  intro m
  induction m with
  | nil =>
    intro sols _
    by_cases hs : sols.isEmpty
    · exact ⟨[LogEntry.infiniteTrivial], by simp [classify, hs, exceptPure_eq_ok]⟩
    · exact ⟨sols.enum.map (fun p => LogEntry.solutionLine (p.1 + 1) p.2),
        by simp [classify, hs, exceptPure_eq_ok]⟩
  | cons row rest ih =>
    intro sols hne
    have hrow : row ≠ [] := hne row (List.mem_cons_self row rest)
    obtain ⟨c, hc⟩ := Option.isSome_iff_exists.mp (List.getLast?_isSome.mpr hrow)
    have hrest : ∀ r ∈ rest, r ≠ [] := fun r hr => hne r (List.mem_cons_of_mem row hr)
    rw [classify, hc]
    by_cases hz : row.dropLast.all (fun x => decide (x = 0))
    · by_cases hcz : c = 0
      · obtain ⟨lg, hlg⟩ := ih sols hrest
        exact ⟨lg, by simp [hz, hcz, hlg]⟩
      · exact ⟨[LogEntry.inconsistent], by simp [hz, hcz, exceptPure_eq_ok]⟩
    · obtain ⟨lg, hlg⟩ := ih (sols ++ [c]) hrest
      exact ⟨lg, by simp only [Bool.not_eq_true] at hz; simp [hz, hlg]⟩

theorem buildMatrix_eq :
    ∀ (cs : List (List ℚ)) (ks : List ℚ), cs.length ≤ ks.length →
      buildMatrix cs ks = .ok (List.zipWith
        (fun row c => row.map (limit_denominator 1000000) ++
          [limit_denominator 1000000 c]) cs ks) := by
  intro cs
  induction cs with
  | nil => intro ks _; simp [buildMatrix, exceptPure_eq_ok]
  | cons crow crest ih =>
    intro ks hlen
    cases ks with
    | nil => simp at hlen
    | cons c krest =>
      rw [buildMatrix, exceptBind_ok]
      simp only [List.zipWith]
      refine ⟨_, ih krest (by simpa using hlen), rfl⟩

theorem buildMatrix_shape (L : Nat) :
    ∀ (cs : List (List ℚ)) (ks : List ℚ) (m : List (List ℚ)),
      buildMatrix cs ks = .ok m → (∀ row ∈ cs, row.length = L) →
      Shape m cs.length (L + 1) := by
  intro cs
  induction cs with
  | nil =>
    intro ks m h _
    simp [buildMatrix, exceptPure_eq_ok] at h
    subst h
    exact ⟨rfl, by simp⟩
  | cons crow crest ih =>
    intro ks m h hrect
    cases ks with
    | nil => simp [buildMatrix] at h
    | cons c krest =>
      rw [buildMatrix, exceptBind_ok] at h
      obtain ⟨rest, hrest, h⟩ := h
      simp [exceptPure_eq_ok] at h
      have hsh := ih krest rest hrest
        (fun r hr => hrect r (List.mem_cons_of_mem crow hr))
      refine ⟨by simp [← h, hsh.1], ?_⟩
      intro row hmem
      rw [← h] at hmem
      rcases List.mem_cons.mp hmem with heq | hmemr

      · simp [heq, hrect crow (List.mem_cons_self crow crest)]
      · exact hsh.2 row hmemr

/-- C10: on every nonempty rectangular coefficient matrix with one
constant per row, solve runs to completion and returns a log rather than
an error: list indexing stays in bounds and the only division (scaling by
the pivot) happens under the pivot-nonzero guard, so the modelled
ZeroDivisionError and IndexError are unreachable. -/
theorem solve_ok (cs : List (List ℚ)) (ks : List ℚ) (L : Nat) (hne : cs ≠ [])
    (hrect : ∀ row ∈ cs, row.length = L) (hlen : ks.length = cs.length) :
    ∃ log, solve cs ks = .ok log := by
  have hR : 0 < cs.length := List.length_pos.mpr hne
  obtain ⟨matrix, hbm⟩ : ∃ m, buildMatrix cs ks = .ok m :=
    ⟨_, buildMatrix_eq cs ks (le_of_eq hlen.symm)⟩
  have hshape : Shape matrix cs.length (L + 1) := buildMatrix_shape L cs ks matrix hbm hrect
  obtain ⟨row0, hrow0, hrow0mem⟩ := idx_ok_exists matrix 0 (by rw [hshape.1]; exact hR)
  have hrow0len : row0.length = L + 1 := hshape.2 row0 hrow0mem
  obtain ⟨m1, pr1, lg1, hp1⟩ := phase1_ok cs.length (L + 1) (List.range L) matrix 0
    hshape (fun c hc => by have := List.mem_range.mp hc; omega)
  have hm1 : Shape m1 cs.length (L + 1) :=
    phase1_shape cs.length (L + 1) (List.range L) matrix m1 0 pr1 lg1 hp1 hshape
  obtain ⟨m2, lg2, hp2⟩ := phase2_ok cs.length (L + 1) L (by omega)
    (List.range cs.length).reverse m1 hm1
    (fun i hi => List.mem_range.mp (List.mem_reverse.mp hi))
  have hm2 : Shape m2 cs.length (L + 1) :=
    phase2_shape cs.length (L + 1) L (List.range cs.length).reverse m1 m2 lg2 hp2 hm1
  obtain ⟨lg3, hcl⟩ := classify_ok m2 [] (fun row hrow => by
    have := hm2.2 row hrow
    intro hempty
    rw [hempty] at this
    simp at this)
  refine ⟨[LogEntry.initialSystem, LogEntry.snapshot "Augmented Matrix" matrix,
    LogEntry.phase1Header] ++ lg1 ++ [LogEntry.refDone, LogEntry.phase2Header] ++ lg2
    ++ [LogEntry.rrefDone, LogEntry.finalHeader] ++ lg3, ?_⟩
  rw [solve]
  simp only [hR.ne', if_false]
  rw [exceptBind_ok]
  refine ⟨matrix, hbm, ?_⟩
  rw [exceptBind_ok]
  refine ⟨row0, hrow0, ?_⟩
  rw [hrow0len]
  simp only [Nat.add_sub_cancel]
  rw [exceptBind_ok]
  refine ⟨(m1, pr1, lg1), hp1, ?_⟩
  rw [exceptBind_ok]
  refine ⟨(m2, lg2), hp2, ?_⟩
  rw [exceptBind_ok]
  exact ⟨lg3, hcl, rfl⟩

theorem classify_inconsistent_of_bad_row :
    ∀ (m : List (List ℚ)) (sols : List ℚ), (∀ row ∈ m, row ≠ []) →
      (∃ row ∈ m, (∀ x ∈ row.dropLast, x = 0) ∧ row.getLast? ≠ some 0) →
      classify m sols = .ok [LogEntry.inconsistent] := by
  intro m
  induction m with
  | nil =>
    intro sols _ hbad
    simp at hbad
  | cons row rest ih =>
    intro sols hne hbad
    have hrow : row ≠ [] := hne row (List.mem_cons_self row rest)
    obtain ⟨c, hc⟩ := Option.isSome_iff_exists.mp (List.getLast?_isSome.mpr hrow)
    have hrest : ∀ r ∈ rest, r ≠ [] := fun r hr => hne r (List.mem_cons_of_mem row hr)
    rw [classify, hc]
    by_cases hz : row.dropLast.all (fun x => decide (x = 0))
    · by_cases hcz : c = 0
      · have hbadrest : ∃ r ∈ rest, (∀ x ∈ r.dropLast, x = 0) ∧ r.getLast? ≠ some 0 := by
          rcases hbad with ⟨r, hrmem, hrz, hrl⟩
          rcases List.mem_cons.mp hrmem with heq | hmem
          · exfalso
            apply hrl
            rw [heq, hc, hcz]
          · exact ⟨r, hmem, hrz, hrl⟩
        rw [hcz]
        simp only [hz]
        simp
        exact ih sols hrest hbadrest
      · simp [hz, hcz, exceptPure_eq_ok]
    · have hbadrest : ∃ r ∈ rest, (∀ x ∈ r.dropLast, x = 0) ∧ r.getLast? ≠ some 0 := by
        rcases hbad with ⟨r, hrmem, hrz, hrl⟩
        rcases List.mem_cons.mp hrmem with heq | hmem
        · exfalso
          apply hz
          rw [← heq, List.all_eq_true]
          intro x hx
          simpa using hrz x hx
        · exact ⟨r, hmem, hrz, hrl⟩
      simp only [Bool.not_eq_true] at hz
      simp only [hz, Bool.false_and, Bool.false_eq_true, if_false]
      exact ih (sols ++ [c]) hrest hbadrest

theorem findPivotCol_range'_leftmost (row : List ℚ) :
    ∀ (n a c : Nat), findPivotCol row (List.range' a n) = .ok (some c) →
      row.get? c = some 1 ∧ a ≤ c ∧
        ∀ c', a ≤ c' → c' < c → row.get? c' ≠ some 1 := by
  intro n
  induction n with
  | zero =>
    intro a c h
    simp [List.range', findPivotCol, exceptPure_eq_ok] at h
  | succ n ih =>
    intro a c h
    rw [show List.range' a (n + 1) = a :: List.range' (a + 1) n from rfl] at h
    rw [findPivotCol, exceptBind_ok] at h
    obtain ⟨v, hv, h⟩ := h
    rw [idx_ok_iff] at hv
    by_cases h1 : v = 1
    · simp [h1, exceptPure_eq_ok] at h
      subst h
      refine ⟨by rw [hv, h1], le_refl a, ?_⟩
      intro c' hac' hc'a
      omega
    · simp only [h1, if_false] at h
      obtain ⟨hget, hle, hnone⟩ := ih (a + 1) c h
      refine ⟨hget, by omega, ?_⟩
      intro c' hac' hc'c
      by_cases hca : c' = a
      · subst hca
        rw [hv]
        intro hcontra
        exact h1 (by injection hcontra)
      · exact hnone c' (by omega) hc'c

/-- C4: in forward elimination, a column whose entry at the current pivot
row is exactly zero only logs the zero-pivot message — no row swap, no
matrix change, pivot row unchanged — while a column with a nonzero pivot
entry advances the pivot-row counter by exactly one. -/
theorem phase1Col_zero_and_advance (R C : Nat) (m : List (List ℚ)) (pr col : Nat)
    (v : ℚ) (hpv : entry m pr col = .ok v) :
    (v = 0 → phase1Col R C m pr col = .ok (m, pr, [LogEntry.pivotZero pr col])) ∧
    (v ≠ 0 → ∀ (m' : List (List ℚ)) (pr' : Nat) (log : List LogEntry),
      phase1Col R C m pr col = .ok (m', pr', log) → pr' = pr + 1) := by
  constructor
  · intro hz
    rw [phase1Col, exceptBind_ok]
    exact ⟨v, hpv, by simp [hz, exceptPure_eq_ok]⟩
  · intro hz m' pr' log h
    rw [phase1Col, exceptBind_ok] at h
    obtain ⟨v', hv', h⟩ := h
    rw [hpv] at hv'
    injection hv' with hv'
    subst hv'
    simp only [hz, if_false] at h
    by_cases h1 : v = 1
    · simp only [h1, ne_eq, not_true_eq_false, if_false] at h
      rw [exceptBind_ok] at h
      obtain ⟨y, hy, h⟩ := h
      rw [exceptBind_ok] at h
      obtain ⟨d, hd, h⟩ := h
      simp only [exceptPure_eq_ok, Except.ok.injEq, Prod.mk.injEq] at h
      exact h.2.1.symm
    · simp only [h1, ne_eq, not_false_eq_true, if_true] at h
      rw [exceptBind_ok] at h
      obtain ⟨prow, hprow, h⟩ := h
      rw [exceptBind_ok] at h
      obtain ⟨scaled, hscaled, h⟩ := h
      rw [exceptBind_ok] at h
      obtain ⟨y, hy, h⟩ := h
      rw [exceptBind_ok] at h
      obtain ⟨d, hd, h⟩ := h
      simp only [exceptPure_eq_ok, Except.ok.injEq, Prod.mk.injEq] at h
      exact h.2.1.symm

/-- Accumulator pass parsing decimal digit characters into a natural
number; a non-digit character rejects the input. -/
def parseNatAux : List Char → Nat → Option Nat
  | [], acc => some acc
  | c :: cs, acc =>
    if c.isDigit then parseNatAux cs (10 * acc + (c.toNat - Char.toNat '0'))
    else none

/-- Parse a nonempty all-digit character list as a natural number. -/
def parseNat : List Char → Option Nat
  | [] => none
  | c :: cs => parseNatAux (c :: cs) 0

/-- Parse an optional leading minus sign followed by decimal digits. -/
def parseInt : List Char → Option Int
  | [] => none
  | c :: cs =>
    if c = '-' then (parseNat cs).map (fun n => -(n : Int))
    else (parseNat (c :: cs)).map (fun n => (n : Int))

/-- Split a character list at its first '/', returning the part before it
and, when a '/' occurs, the part after it. -/
def splitSlash : List Char → List Char × Option (List Char)
  | [] => ([], none)
  | c :: cs =>
    if c = '/' then ([], some cs)
    else
      let p := splitSlash cs
      (c :: p.1, p.2)

/-- Modelled from the spec: the collaborator re-parses cell text as an
exact rational, accepting an integer literal or "numerator/denominator"
fraction text; the parser itself is Python's Fraction string constructor
(standard library), not part of src/.  Decimal forms, which format_value
never produces, are omitted.  A zero denominator is rejected, as Fraction
raises ZeroDivisionError there. -/
def parseRational (s : String) : Option ℚ :=
  match splitSlash s.toList with
  | (numPart, none) => (parseInt numPart).map (fun n => (n : ℚ))
  | (numPart, some denPart) =>
    match parseInt numPart, parseNat denPart with
    | some n, some d => if d = 0 then none else some ((n : ℚ) / (d : ℚ))
    | _, _ => none

/-- The most-significant-first decimal digit characters of a natural
number: the structural specification of Nat.toDigitsCore at base 10. -/
def natDigitsRev (n : Nat) : List Char :=
  if _h : n < 10 then [Nat.digitChar n]
  else natDigitsRev (n / 10) ++ [Nat.digitChar (n % 10)]
decreasing_by exact Nat.div_lt_self (by omega) (by omega)

theorem natDigitsRev_lt (n : Nat) (h : n < 10) :
    natDigitsRev n = [Nat.digitChar n] := by
  conv_lhs => rw [natDigitsRev]
  rw [dif_pos h]

theorem natDigitsRev_ge (n : Nat) (h : ¬n < 10) :
    natDigitsRev n = natDigitsRev (n / 10) ++ [Nat.digitChar (n % 10)] := by
  conv_lhs => rw [natDigitsRev]
  rw [dif_neg h]

theorem digitChar_spec : ∀ n, n < 10 →
    (Nat.digitChar n).isDigit = true ∧
      (Nat.digitChar n).toNat - Char.toNat '0' = n := by decide

theorem natDigitsRev_ne_nil (n : Nat) : natDigitsRev n ≠ [] := by
  rw [natDigitsRev]
  split <;> simp

theorem natDigitsRev_isDigit :
    ∀ n : Nat, ∀ c ∈ natDigitsRev n, c.isDigit = true := by
  intro n
  induction n using Nat.strong_induction_on with
  | _ n ih =>
    rw [natDigitsRev]
    split
    · intro c hc
      simp only [List.mem_singleton] at hc
      subst hc
      exact (digitChar_spec n (by omega)).1
    · intro c hc
      rcases List.mem_append.mp hc with h1 | h2
      · exact ih (n / 10) (Nat.div_lt_self (by omega) (by omega)) c h1
      · simp only [List.mem_singleton] at h2
        subst h2
        exact (digitChar_spec (n % 10) (by omega)).1

theorem parseNatAux_natDigitsRev :
    ∀ (n : Nat) (rest : List Char) (acc : Nat),
      parseNatAux (natDigitsRev n ++ rest) acc =
        parseNatAux rest (acc * 10 ^ (natDigitsRev n).length + n) := by
  intro n
  induction n using Nat.strong_induction_on with
  | _ n ih =>
    intro rest acc
    by_cases h : n < 10
    · rw [natDigitsRev_lt n h]
      simp only [List.cons_append, List.nil_append, List.length_singleton]
      rw [parseNatAux, if_pos (digitChar_spec n h).1, (digitChar_spec n h).2]
      congr 1
      rw [pow_one]
      ring
    · rw [natDigitsRev_ge n h]
      rw [List.append_assoc]
      rw [ih (n / 10) (Nat.div_lt_self (by omega) (by omega))]
      simp only [List.singleton_append]
      rw [parseNatAux, if_pos (digitChar_spec (n % 10) (by omega)).1,
        (digitChar_spec (n % 10) (by omega)).2]
      simp only [List.length_append, List.length_singleton]
      congr 1
      have hpow : acc * 10 ^ ((natDigitsRev (n / 10)).length + 1) =
          10 * (acc * 10 ^ (natDigitsRev (n / 10)).length) := by ring
      rw [hpow]
      omega

theorem parseNat_natDigitsRev (n : Nat) :
    parseNat (natDigitsRev n) = some n := by
  cases hnd : natDigitsRev n with
  | nil => exact absurd hnd (natDigitsRev_ne_nil n)
  | cons c cs =>
    rw [parseNat, ← hnd]
    have := parseNatAux_natDigitsRev n [] 0
    rw [List.append_nil] at this
    rw [this, parseNatAux]
    simp

theorem toDigitsCore_eq_natDigitsRev :
    ∀ (fuel n : Nat) (ds : List Char), n < fuel →
      Nat.toDigitsCore 10 fuel n ds = natDigitsRev n ++ ds := by
  intro fuel
  induction fuel with
  | zero => intro n ds h; omega
  | succ fuel ih =>
    intro n ds h
    rw [show Nat.toDigitsCore 10 (fuel + 1) n ds =
      (if n / 10 = 0 then Nat.digitChar (n % 10) :: ds
       else Nat.toDigitsCore 10 fuel (n / 10) (Nat.digitChar (n % 10) :: ds)) from rfl]
    by_cases hdiv : n / 10 = 0
    · rw [if_pos hdiv]
      have hn : n < 10 := by omega
      rw [natDigitsRev_lt n hn, Nat.mod_eq_of_lt hn]
      rfl
    · rw [if_neg hdiv]
      have h10 : 10 ≤ n := by omega
      rw [ih (n / 10) (Nat.digitChar (n % 10) :: ds)
        (Nat.lt_of_lt_of_le (Nat.div_lt_self (by omega) (by omega)) (by omega))]
      rw [natDigitsRev_ge n (by omega)]
      simp [List.append_assoc]

theorem repr_toList_eq_natDigitsRev (n : Nat) :
    (Nat.repr n).toList = natDigitsRev n := by
  show (Nat.toDigits 10 n).asString.toList = natDigitsRev n
  rw [show Nat.toDigits 10 n = Nat.toDigitsCore 10 (n + 1) n [] from rfl]
  rw [toDigitsCore_eq_natDigitsRev (n + 1) n [] (by omega)]
  rw [List.append_nil]
  rfl

theorem parseNat_repr (n : Nat) : parseNat (Nat.repr n).toList = some n := by
  rw [repr_toList_eq_natDigitsRev]
  exact parseNat_natDigitsRev n

theorem repr_toList_isDigit (n : Nat) :
    ∀ c ∈ (Nat.repr n).toList, c.isDigit = true := by
  rw [repr_toList_eq_natDigitsRev]
  exact natDigitsRev_isDigit n

theorem parseInt_repr (i : Int) : parseInt (Int.repr i).toList = some i := by
  cases i with
  | ofNat m =>
    rw [show Int.repr (Int.ofNat m) = Nat.repr m from rfl]
    cases hnd : (Nat.repr m).toList with
    | nil =>
      rw [repr_toList_eq_natDigitsRev] at hnd
      exact absurd hnd (natDigitsRev_ne_nil m)
    | cons c cs =>
      have hcdig : c.isDigit = true :=
        repr_toList_isDigit m c (by rw [hnd]; exact List.mem_cons_self c cs)
      have hcne : ¬(c = '-') := by
        intro he
        rw [he] at hcdig
        exact absurd hcdig (by decide)
      rw [parseInt, if_neg hcne, ← hnd, parseNat_repr m]
      rfl
  | negSucc m =>
    rw [show Int.repr (Int.negSucc m) = "-" ++ Nat.repr (m + 1) from rfl]
    have hdata : ("-" ++ Nat.repr (m + 1)).toList = '-' :: (Nat.repr (m + 1)).toList := by
      show ("-" ++ Nat.repr (m + 1)).data = '-' :: (Nat.repr (m + 1)).data
      rw [String.data_append]
      rfl
    rw [hdata, parseInt, if_pos rfl, parseNat_repr (m + 1)]
    simp [Int.negSucc_eq]

theorem repr_toList_no_slash (i : Int) : '/' ∉ (Int.repr i).toList := by
  cases i with
  | ofNat m =>
    rw [show Int.repr (Int.ofNat m) = Nat.repr m from rfl]
    intro hmem
    have := repr_toList_isDigit m _ hmem
    exact absurd this (by decide)
  | negSucc m =>
    rw [show Int.repr (Int.negSucc m) = "-" ++ Nat.repr (m + 1) from rfl]
    have hdata : ("-" ++ Nat.repr (m + 1)).toList = '-' :: (Nat.repr (m + 1)).toList := by
      show ("-" ++ Nat.repr (m + 1)).data = '-' :: (Nat.repr (m + 1)).data
      rw [String.data_append]
      rfl
    rw [hdata]
    intro hmem
    rcases List.mem_cons.mp hmem with h | h
    · exact absurd h (by decide)
    · have := repr_toList_isDigit (m + 1) _ h
      exact absurd this (by decide)

theorem splitSlash_of_no_slash :
    ∀ cs : List Char, '/' ∉ cs → splitSlash cs = (cs, none) := by
  intro cs
  induction cs with
  | nil => intro _; rfl
  | cons c cs ih =>
    intro h
    have hc : ¬(c = '/') := fun he => h (he ▸ List.mem_cons_self c cs)
    rw [splitSlash, if_neg hc, ih (fun hm => h (List.mem_cons_of_mem c hm))]

theorem splitSlash_append (xs ys : List Char) (h : '/' ∉ xs) :
    splitSlash (xs ++ '/' :: ys) = (xs, some ys) := by
  induction xs with
  | nil => simp [splitSlash]
  | cons c cs ih =>
    have hc : ¬(c = '/') := fun he => h (he ▸ List.mem_cons_self c cs)
    rw [List.cons_append, splitSlash, if_neg hc,
      ih (fun hm => h (List.mem_cons_of_mem c hm))]

/-- C8: format_value returns the integer literal string (no slash) exactly
when the denominator is 1 and "numerator/denominator" otherwise, and
re-parsing the formatted string as a rational recovers the original
value. -/
theorem format_value_round_trip (q : ℚ) :
    parseRational (format_value q) = some q ∧
    (q.den = 1 → format_value q = toString q.num ∧ '/' ∉ (format_value q).toList) ∧
    (q.den ≠ 1 → format_value q = toString q.num ++ "/" ++ toString q.den) := by
  have hpi : parseInt (toString q.num).toList = some q.num := parseInt_repr q.num
  have hns : '/' ∉ (toString q.num).toList := repr_toList_no_slash q.num
  by_cases hden : q.den = 1
  · have hfmt : format_value q = toString q.num := by
      rw [format_value, if_pos hden]
    have hq : (q.num : ℚ) = q := by
      have h := Rat.num_div_den q
      rw [hden] at h
      simpa using h
    refine ⟨?_, fun _ => ⟨hfmt, hfmt ▸ hns⟩, fun h => absurd hden h⟩
    rw [hfmt]
    simp only [parseRational]
    rw [splitSlash_of_no_slash _ hns]
    have hpi' : parseInt (toString q.num).data = some q.num := hpi
    simp [hpi', hq]
  · have hfmt : format_value q = toString q.num ++ "/" ++ toString q.den := by
      rw [format_value, if_neg hden]
    have hpn : parseNat (toString q.den).toList = some q.den := parseNat_repr q.den
    refine ⟨?_, fun h => absurd h hden, fun _ => hfmt⟩
    rw [hfmt]
    have htl : (toString q.num ++ "/" ++ toString q.den).toList
        = (toString q.num).toList ++ '/' :: (toString q.den).toList := by
      show ((toString q.num ++ "/") ++ toString q.den).data
          = (toString q.num).data ++ '/' :: (toString q.den).data
      rw [String.data_append, String.data_append, List.append_assoc]
      rfl
    simp only [parseRational]
    rw [htl, splitSlash_append _ _ hns]
    simp only [hpi, hpn]
    rw [if_neg q.den_nz]
    rw [Rat.num_div_den]

/-- C1: whenever some final-matrix row has every coefficient entry exactly
zero and a nonzero constant entry, classification returns exactly the
single INCONSISTENT line, stopping at that row and discarding any
solutions already accumulated; concretely, solve [[1,1],[1,1]] [2,3] logs
INCONSISTENT and emits no solution-value lines. -/
theorem claim1_inconsistent_stops_classification :
    (∀ (m : List (List ℚ)) (sols : List ℚ), (∀ row ∈ m, row ≠ []) →
      (∃ row ∈ m, (∀ x ∈ row.dropLast, x = 0) ∧ row.getLast? ≠ some 0) →
      classify m sols = .ok [LogEntry.inconsistent]) ∧
    logSat (solve [[1, 1], [1, 1]] [2, 3]) (fun log =>
      decide (LogEntry.inconsistent ∈ log) &&
      log.all (fun e => !isSolutionLine e)) = true :=
  ⟨classify_inconsistent_of_bad_row, by decide⟩

/-- Witness for C1 at the concrete final matrix [[0, 1]] with a previously
accumulated solution 7, which is discarded. -/
theorem claim1_witness :
    (∀ row ∈ [[(0 : ℚ), 1]], row ≠ []) ∧
    (∃ row ∈ [[(0 : ℚ), 1]], (∀ x ∈ row.dropLast, x = 0) ∧ row.getLast? ≠ some 0) ∧
    classify [[(0 : ℚ), 1]] [7] = .ok [LogEntry.inconsistent] :=
  ⟨by decide, by decide,
   claim1_inconsistent_stops_classification.1 [[(0 : ℚ), 1]] [7] (by decide) (by decide)⟩

/-- C2 counterexample: on coefficients [[1,1],[2,2]] with constants [3,6]
the solver emits the solution line x1 = 3 and does not report "infinite
solutions or trivial system", so the claimed outcome is false. -/
theorem claim2_counterexample :
    logSat (solve [[1, 1], [2, 2]] [3, 6]) (fun log =>
      decide (LogEntry.solutionLine 1 3 ∈ log) &&
      !(decide (LogEntry.infiniteTrivial ∈ log))) = true := by decide

/-- C2 amended: the redundant second row is reduced to all zeros (the
snapshot [[1,1,3],[0,0,0]] is logged), but the surviving first row
[1, 1, 3] is accepted as a solution row, so the solver emits exactly the
single solution line x1 = 3 and no infinite/trivial notice. -/
theorem claim2_amended :
    logSat (solve [[1, 1], [2, 2]] [3, 6]) (fun log =>
      decide (log.filter isSolutionLine = [LogEntry.solutionLine 1 3]) &&
      decide (LogEntry.snapshot "Current Matrix State" [[1, 1, 3], [0, 0, 0]] ∈ log) &&
      !(decide (LogEntry.infiniteTrivial ∈ log))) = true := by decide

/-- C3: on coefficients [[2,1],[1,3]] with constants [5,10] the solver
produces exactly the solution lines x1 = 1 and x2 = 3, and its log
contains at least one row-scale and at least one row-subtract
operation. -/
theorem claim3_simple_elimination :
    logSat (solve [[2, 1], [1, 3]] [5, 10]) (fun log =>
      decide (log.filter isSolutionLine =
        [LogEntry.solutionLine 1 1, LogEntry.solutionLine 2 3]) &&
      log.any isScaleOp && log.any isSubtractOp) = true := by decide

/-- Witness for C4: a zero pivot at (0,0) leaves the matrix and pivot row
untouched and logs only the zero-pivot message, while a nonzero pivot
(2 in a 1-row system) advances the pivot row from 0 to 1. -/
theorem claim4_witness :
    (entry [[(0 : ℚ), 1], [1, 0]] 0 0 = .ok 0) ∧
    (phase1Col 2 2 [[(0 : ℚ), 1], [1, 0]] 0 0 =
      .ok ([[(0 : ℚ), 1], [1, 0]], 0, [LogEntry.pivotZero 0 0])) ∧
    (entry [[(2 : ℚ), 5]] 0 0 = .ok 2) ∧ (1 = 0 + 1) :=
  ⟨rfl,
   (phase1Col_zero_and_advance 2 2 [[(0 : ℚ), 1], [1, 0]] 0 0 0 rfl).1 rfl,
   rfl,
   (phase1Col_zero_and_advance 1 2 [[(2 : ℚ), 5]] 0 0 2 rfl).2 (by decide)
     [[(1 : ℚ), 5 / 2]] 1
     [LogEntry.scaleOp 0 2,
      LogEntry.snapshot "Current Matrix State" [[(1 : ℚ), 5 / 2]]] rfl⟩

/-- C5: in back substitution, a detected pivot column is the leftmost
coefficient column whose entry is exactly 1, and a row with no entry
exactly 1 is skipped entirely: the Phase-2 row step returns the matrix
unchanged with no logged operations on the rows above. -/
theorem claim5_phase2_pivot_detection :
    ∀ (n_vars : Nat) (row : List ℚ) (c cols i : Nat) (m : List (List ℚ)),
      (findPivotCol row (List.range n_vars) = .ok (some c) →
        row.get? c = some 1 ∧ ∀ c' < c, row.get? c' ≠ some 1) ∧
      (idx m i = .ok row → findPivotCol row (List.range n_vars) = .ok none →
        phase2Row n_vars cols i m = .ok (m, [])) := by
  intro n_vars row c cols i m
  constructor
  · intro h
    rw [List.range_eq_range'] at h
    obtain ⟨hget, _, hleft⟩ := findPivotCol_range'_leftmost row n_vars 0 c h
    exact ⟨hget, fun c' hc' => hleft c' (Nat.zero_le c') hc'⟩
  · intro hidx hfp
    rw [phase2Row, exceptBind_ok]
    refine ⟨row, hidx, ?_⟩
    rw [exceptBind_ok]
    exact ⟨none, hfp, rfl⟩

/-- Witness for C5: in [0, 1] the detected pivot column is 1 (the leftmost
entry equal to 1), and the row [2, 3] with no entry equal to 1 leaves the
1-row system untouched. -/
theorem claim5_witness :
    (findPivotCol [(0 : ℚ), 1] (List.range 2) = .ok (some 1)) ∧
    ([(0 : ℚ), 1].get? 1 = some 1) ∧
    (idx [[(2 : ℚ), 3]] 0 = .ok [(2 : ℚ), 3]) ∧
    (findPivotCol [(2 : ℚ), 3] (List.range 1) = .ok none) ∧
    phase2Row 1 2 0 [[(2 : ℚ), 3]] = .ok ([[(2 : ℚ), 3]], []) :=
  ⟨rfl,
   ((claim5_phase2_pivot_detection 2 [(0 : ℚ), 1] 1 0 0 []).1 rfl).1,
   rfl, rfl,
   (claim5_phase2_pivot_detection 1 [(2 : ℚ), 3] 0 2 0 [[(2 : ℚ), 3]]).2 rfl rfl⟩

/-- C6 counterexample: an input with one row and zero coefficient columns
is not a silent no-op: solve [[]] [5] emits a nonempty log (and even
reports INCONSISTENT), refuting the zero-column half of the claim. -/
theorem claim6_counterexample :
    logSat (solve [[]] [(5 : ℚ)]) (fun log =>
      decide (log ≠ []) && decide (LogEntry.inconsistent ∈ log)) = true := by decide

/-- C6 amended: an input with zero rows is a silent no-op (no log lines, no
error) for every constants list, but an input with rows and zero
coefficient columns does log: solve [[]] [5] emits a nonempty log ending
in an INCONSISTENT classification. -/
theorem claim6_amended :
    (∀ constants : List ℚ, solve [] constants = .ok []) ∧
    logSat (solve [[]] [(5 : ℚ)]) (fun log =>
      decide (log ≠ []) && decide (LogEntry.inconsistent ∈ log)) = true :=
  ⟨fun _ => rfl, by decide⟩

/-- C7 counterexample: the exact rational 1/1000001 does not appear
unchanged in the augmented matrix: matrix construction replaces it with
the limit-denominator approximation 1/1000000. -/
theorem claim7_counterexample :
    buildMatrix [[1 / 1000001]] [0] = .ok [[1 / 1000000, 0]] ∧
    (1 / 1000001 : ℚ) ≠ 1 / 1000000 :=
  ⟨rfl, by decide⟩

/-- C7 amended: matrix construction passes every value through
Fraction.limit_denominator with bound 1000000: a value whose reduced
denominator is at most 1000000 appears unchanged, and the augmented matrix
consists exactly of the limit-denominator images of the coefficient rows
with the image of the constant appended. -/
theorem claim7_amended :
    (∀ q : ℚ, q.den ≤ 1000000 → limit_denominator 1000000 q = q) ∧
    (∀ (cs : List (List ℚ)) (ks : List ℚ), cs.length ≤ ks.length →
      buildMatrix cs ks = .ok (List.zipWith (fun row c =>
        row.map (limit_denominator 1000000) ++
          [limit_denominator 1000000 c]) cs ks)) :=
  ⟨fun q h => by simp [limit_denominator, h], buildMatrix_eq⟩

/-- Witness for C7 at the value 1/2 (denominator within the bound) and the
one-row system [[1, 2]] with constant 3. -/
theorem claim7_witness :
    ((1 / 2 : ℚ).den ≤ 1000000 ∧ limit_denominator 1000000 (1 / 2) = 1 / 2) ∧
    ([[(1 : ℚ), 2]].length ≤ [(3 : ℚ)].length ∧
      buildMatrix [[(1 : ℚ), 2]] [3] = .ok (List.zipWith (fun row c =>
        row.map (limit_denominator 1000000) ++
          [limit_denominator 1000000 c]) [[(1 : ℚ), 2]] [(3 : ℚ)])) :=
  ⟨⟨by decide, claim7_amended.1 (1 / 2) (by decide)⟩,
   ⟨by decide, claim7_amended.2 [[(1 : ℚ), 2]] [3] (by decide)⟩⟩

/-- Witness for C8 at 5/1 (integer-valued) and 3/4. -/
theorem format_value_round_trip_witness :
    (parseRational (format_value (5 : ℚ)) = some 5 ∧ (5 : ℚ).den = 1) ∧
    (parseRational (format_value (3 / 4 : ℚ)) = some (3 / 4) ∧ (3 / 4 : ℚ).den ≠ 1) :=
  ⟨⟨(format_value_round_trip 5).1, by decide⟩,
   ⟨(format_value_round_trip (3 / 4)).1, by decide⟩⟩

/-- C9: the Phase-1 and Phase-2 elimination loops, and hence every row
scaling and row subtraction they perform, preserve the matrix shape: the
row count stays R, every row keeps length n_vars + 1 (coefficient columns
plus the final constant column), and all entries remain rationals. -/
theorem claim9_shape_invariants (R n_vars : Nat) (cs is : List Nat)
    (m m1 m2 m3 : List (List ℚ)) (pr pr1 : Nat) (lg1 lg2 : List LogEntry) :
    (phase1 R (n_vars + 1) cs m pr = .ok (m1, pr1, lg1) →
      Shape m R (n_vars + 1) → Shape m1 R (n_vars + 1)) ∧
    (phase2 n_vars (n_vars + 1) is m2 = .ok (m3, lg2) →
      Shape m2 R (n_vars + 1) → Shape m3 R (n_vars + 1)) :=
  ⟨fun h hm => phase1_shape R (n_vars + 1) cs m m1 pr pr1 lg1 h hm,
   fun h hm => phase2_shape R (n_vars + 1) n_vars is m2 m3 lg2 h hm⟩

/-- Witness for C9 on the 1-by-2 augmented matrix [[2, 5]]: Phase 1 scales
the row to [[1, 5/2]] and Phase 2 on [[1, 3]] finds its pivot and changes
nothing; both preserve the 1-row 2-column shape. -/
theorem claim9_witness :
    (phase1 1 2 [0] [[(2 : ℚ), 5]] 0 =
      .ok ([[(1 : ℚ), 5 / 2]], 1, [LogEntry.scaleOp 0 2,
        LogEntry.snapshot "Current Matrix State" [[(1 : ℚ), 5 / 2]]])) ∧
    Shape [[(2 : ℚ), 5]] 1 2 ∧ Shape [[(1 : ℚ), 5 / 2]] 1 2 ∧
    (phase2 1 2 [0] [[(1 : ℚ), 3]] = .ok ([[(1 : ℚ), 3]], [])) ∧
    Shape [[(1 : ℚ), 3]] 1 2 :=
  ⟨rfl, by decide,
   (claim9_shape_invariants 1 1 [0] [0] [[(2 : ℚ), 5]] [[(1 : ℚ), 5 / 2]]
      [[(1 : ℚ), 3]] [[(1 : ℚ), 3]] 0 1
      [LogEntry.scaleOp 0 2,
       LogEntry.snapshot "Current Matrix State" [[(1 : ℚ), 5 / 2]]] []).1
     rfl (by decide),
   rfl,
   (claim9_shape_invariants 1 1 [0] [0] [[(2 : ℚ), 5]] [[(1 : ℚ), 5 / 2]]
      [[(1 : ℚ), 3]] [[(1 : ℚ), 3]] 0 1
      [LogEntry.scaleOp 0 2,
       LogEntry.snapshot "Current Matrix State" [[(1 : ℚ), 5 / 2]]] []).2
     rfl (by decide)⟩

/-- Witness for C10 on the 2-by-2 system [[2,1],[1,3]] with constants
[5,10]. -/
theorem solve_ok_witness :
    ([[(2 : ℚ), 1], [1, 3]] ≠ ([] : List (List ℚ))) ∧
    (∀ row ∈ [[(2 : ℚ), 1], [1, 3]], row.length = 2) ∧
    ([(5 : ℚ), 10].length = [[(2 : ℚ), 1], [1, 3]].length) ∧
    (∃ log, solve [[2, 1], [1, 3]] [5, 10] = .ok log) :=
  ⟨by decide, by decide, by decide,
   solve_ok [[2, 1], [1, 3]] [5, 10] 2 (by decide) (by decide) (by decide)⟩

end LinearSystemSolver
